import Mathlib

/-!
Shallow embedding of the `image_processing` repository (files
`image_processing/canvas.py` and `image_processing/png_writer.py`).

Conventions of the embedding:
* Python floats are modelled as exact rationals (`ℚ`); the magic thresholds
  `0.999999`, `0.000001` and `0.999` of the source become the rationals
  `999999/1000000`, `1/1000000` and `999/1000`.
* Byte buffers are `List ℕ`; a byte is a natural number below 256 (Python's
  `bytes` type guarantees this; theorems add the bound where it matters).
* Fallible code (Python exceptions: `ZeroDivisionError`, `struct.error`,
  `IndexError`, `ValueError`) is modelled with `Option`, `none` meaning the
  Python code raises.
* In-place mutation of a canvas becomes explicit state passing: the loop body
  of a mutating method is a recursive function threading the pixel list.
-/

/-- `RgbaColor` from canvas.py: four rational channels. -/
structure RgbaColor where
  r : ℚ
  g : ℚ
  b : ℚ
  a : ℚ
deriving DecidableEq

/-- `RgbaColor.__init__`: each channel must lie in [0, 1] or a `ValueError`
is raised (modelled as `none`). -/
def mkRgbaColor (r g b a : ℚ) : Option RgbaColor :=
  if r < 0 ∨ 1 < r then none
  else if g < 0 ∨ 1 < g then none
  else if b < 0 ∨ 1 < b then none
  else if a < 0 ∨ 1 < a then none
  else some ⟨r, g, b, a⟩

/-- `Canvas` from canvas.py: width, height, background color and the flat
row-major pixel list. -/
structure Canvas where
  width : ℕ
  height : ℕ
  bgcolor : RgbaColor
  canvas : List RgbaColor
deriving DecidableEq

/-- `Canvas.__init__(width, height, bgcolor)`: stores the fields and calls
`clear()`, so the pixel list is `width*height` copies of the background. -/
def canvasNew (width height : ℕ) (bgcolor : RgbaColor) : Canvas :=
  ⟨width, height, bgcolor, List.replicate (width * height) bgcolor⟩

/-- `Canvas.clear()`: refills the pixel list with the background color. -/
def Canvas.clear (c : Canvas) : Canvas :=
  { c with canvas := List.replicate (c.width * c.height) c.bgcolor }

/-- `Canvas.coordinate_to_index(x, y)`: bounds check, then `x + width * y`.
`none` models the raised `ValueError`. -/
def Canvas.coordinate_to_index (c : Canvas) (x y : ℤ) : Option ℕ :=
  if x < 0 ∨ (c.width : ℤ) - 1 < x ∨ y < 0 ∨ (c.height : ℤ) - 1 < y then none
  else some (x + (c.width : ℤ) * y).toNat

/-- `Canvas.at(x, y)` (named `pixelAt` here because `at` is reserved in Lean):
index computation followed by the list access `self.canvas[i]`. -/
def Canvas.pixelAt (c : Canvas) (x y : ℤ) : Option RgbaColor :=
  (c.coordinate_to_index x y).bind fun i => c.canvas[i]?

/-- The (target_x, target_y) pairs visited by the nested loop of
`Canvas.rect`, in iteration order: for each `target_y` in `range h`, each
`target_x` in `range w`. -/
def rectCoords (w : ℕ) : ℕ → List (ℕ × ℕ)
  | 0 => []
  | h + 1 => rectCoords w h ++ (List.range w).map fun tx => (tx, h)

/-- `Canvas.rect(x, y, width, height)`: the three validation checks of the
source, then the nested copy loop.  Pixel `target_i = target_y*w + target_x`
of the new canvas is `self.at(x + target_x, y + target_y)`; `rectCoords`
enumerates the targets in exactly that order. -/
def Canvas.rect (c : Canvas) (x y w h : ℤ) : Option Canvas :=
  if x < 0 ∨ (c.width : ℤ) - 1 < x ∨ y < 0 ∨ (c.height : ℤ) - 1 < y then none
  else if w < 0 ∨ h < 0 then none
  else if (c.width : ℤ) < x + w ∨ (c.height : ℤ) < y + h then none
  else
    ((rectCoords w.toNat h.toNat).mapM fun p => c.pixelAt (x + p.1) (y + p.2)).map
      fun px => ⟨w.toNat, h.toNat, c.bgcolor, px⟩

/-- The per-pixel body of `Canvas.blend`.  Returns the new destination pixel;
`none` models the `ZeroDivisionError` raised when `new_alpha` is exactly 0
(the source divides before the near-zero test).  The reads of `dst_color.a`
in the r,g,b assignments happen before alpha is overwritten, which the
`let`-bindings reproduce. -/
def blendPixel (ignore_src_alpha : Bool) (src dst : RgbaColor) : Option RgbaColor :=
  if ignore_src_alpha = true ∨ (999999 : ℚ) / 1000000 ≤ src.a then some src
  else
    let na := src.a + dst.a * (1 - src.a)
    if na = 0 then none
    else
      let nr := (src.r * src.a + dst.r * dst.a * (1 - src.a)) / na
      let ng := (src.g * src.a + dst.g * dst.a * (1 - src.a)) / na
      let nb := (src.b * src.a + dst.b * dst.a * (1 - src.a)) / na
      if na < (1 : ℚ) / 1000000 then some ⟨0, 0, 0, 0⟩ else some ⟨nr, ng, nb, na⟩

/-- The loop of `Canvas.blend`, walking `enumerate(src.canvas)` with counter
`i` and threading the destination pixel list `st`.  `sw`, `dw`, `dh` are the
source width and destination width/height.  A zero source width with a
nonempty source pixel list would make `i % src.width` raise
(`ZeroDivisionError`), hence the `sw = 0` branch. -/
def blendGo (sw dw dh : ℕ) (ox oy : ℤ) (ign : Bool) :
    List RgbaColor → ℕ → List RgbaColor → Option (List RgbaColor)
  | [], _, st => some st
  | p :: rest, i, st =>
    if sw = 0 then none
    else
      let tx : ℤ := ox + (i % sw : ℕ)
      let ty : ℤ := oy + (i / sw : ℕ)
      if tx < 0 ∨ (dw : ℤ) - 1 < tx ∨ ty < 0 ∨ (dh : ℤ) - 1 < ty then
        blendGo sw dw dh ox oy ign rest (i + 1) st
      else
        match st[(ty * dw + tx).toNat]? with
        | none => none
        | some d =>
          match blendPixel ign p d with
          | none => none
          | some d2 => blendGo sw dw dh ox oy ign rest (i + 1) (st.set (ty * dw + tx).toNat d2)

/-- `Canvas.blend(src, offset_x, offset_y, ignore_src_alpha)`: runs the loop
on this canvas's pixel list; the result is the mutated canvas. -/
def Canvas.blend (c src : Canvas) (offset_x offset_y : ℤ) (ignore_src_alpha : Bool) :
    Option Canvas :=
  (blendGo src.width c.width c.height offset_x offset_y ignore_src_alpha
      src.canvas 0 c.canvas).map fun l => { c with canvas := l }

/-- Python bytearray slice assignment `data[p:p+3] = xyz` (`xyz` of length 3):
replace the slice `[p, p+3)`; for `p` at or past the end this appends. -/
def writeSlice (st : List ℕ) (p : ℕ) (xyz : List ℕ) : List ℕ :=
  st.take p ++ xyz ++ st.drop (p + 3)

/-- The per-pixel body of `Canvas.bytes`: three output bytes, flattening
non-opaque pixels against the background.  `pack("!3B", ...)` raises
(`none`) when a value is outside [0, 255]. -/
def pixelBytes (bg col : RgbaColor) : Option (List ℕ) :=
  let t : ℤ × ℤ × ℤ :=
    if (999 : ℚ) / 1000 ≤ col.a then
      (⌊col.r * 255⌋, ⌊col.g * 255⌋, ⌊col.b * 255⌋)
    else
      (⌊(col.r * col.a + bg.r * (1 - col.a)) * 255⌋,
       ⌊(col.g * col.a + bg.g * (1 - col.a)) * 255⌋,
       ⌊(col.b * col.a + bg.b * (1 - col.a)) * 255⌋)
  if 0 ≤ t.1 ∧ t.1 ≤ 255 ∧ 0 ≤ t.2.1 ∧ t.2.1 ≤ 255 ∧ 0 ≤ t.2.2 ∧ t.2.2 ≤ 255 then
    some [t.1.toNat, t.2.1.toNat, t.2.2.toNat]
  else none

/-- The loop of `Canvas.bytes`, walking `enumerate(self.canvas)` and writing
each pixel's three bytes at offset `i*3` of the output buffer. -/
def bytesGo (bg : RgbaColor) : List RgbaColor → ℕ → List ℕ → Option (List ℕ)
  | [], _, st => some st
  | col :: rest, i, st =>
    match pixelBytes bg col with
    | none => none
    | some t => bytesGo bg rest (i + 1) (writeSlice st (i * 3) t)

/-- `Canvas.bytes()`: a zero-filled buffer of `width*height*3` bytes,
overwritten pixel by pixel. -/
def Canvas.bytes (c : Canvas) : Option (List ℕ) :=
  bytesGo c.bgcolor c.canvas 0 (List.replicate (c.width * c.height * 3) 0)

/-- `unpack_from("!3B", data, i)`: requires at least `i+3` bytes, else
`struct.error` (`none`). -/
def unpack3 (data : List ℕ) (i : ℕ) : Option (ℕ × ℕ × ℕ) :=
  if i + 3 ≤ data.length then some (data.getD i 0, data.getD (i + 1) 0, data.getD (i + 2) 0)
  else none

/-- `unpack_from("!4B", data, i)`: requires at least `i+4` bytes. -/
def unpack4 (data : List ℕ) (i : ℕ) : Option (ℕ × ℕ × ℕ × ℕ) :=
  if i + 4 ≤ data.length then
    some (data.getD i 0, data.getD (i + 1) 0, data.getD (i + 2) 0, data.getD (i + 3) 0)
  else none

/-- The loop of `Canvas.import_rgb_data` over the index list
`range(0, len(data), 3)`: unpack three bytes, build a validated color, store
it at `i // 3` (an out-of-range store is an `IndexError`, `none`). -/
def importRgbGo (data : List ℕ) : List ℕ → List RgbaColor → Option (List RgbaColor)
  | [], st => some st
  | i :: idxs, st =>
    match unpack3 data i with
    | none => none
    | some (r, g, b) =>
      match mkRgbaColor ((r : ℚ) / 255) ((g : ℚ) / 255) ((b : ℚ) / 255) 1 with
      | none => none
      | some col =>
        if i / 3 < st.length then importRgbGo data idxs (st.set (i / 3) col) else none

/-- `Canvas.import_rgb_data(data)`: `range(0, len(data), 3)` has
`⌈len/3⌉ = (len+2)/3` elements `0, 3, 6, ...`. -/
def Canvas.import_rgb_data (c : Canvas) (data : List ℕ) : Option Canvas :=
  (importRgbGo data ((List.range ((data.length + 2) / 3)).map (· * 3)) c.canvas).map
    fun l => { c with canvas := l }

/-- The loop of `Canvas.import_rgba_data` over `range(0, len(data), 4)`. -/
def importRgbaGo (data : List ℕ) : List ℕ → List RgbaColor → Option (List RgbaColor)
  | [], st => some st
  | i :: idxs, st =>
    match unpack4 data i with
    | none => none
    | some (r, g, b, a) =>
      match mkRgbaColor ((r : ℚ) / 255) ((g : ℚ) / 255) ((b : ℚ) / 255) ((a : ℚ) / 255) with
      | none => none
      | some col =>
        if i / 4 < st.length then importRgbaGo data idxs (st.set (i / 4) col) else none

/-- `Canvas.import_rgba_data(data)`. -/
def Canvas.import_rgba_data (c : Canvas) (data : List ℕ) : Option Canvas :=
  (importRgbaGo data ((List.range ((data.length + 3) / 4)).map (· * 4)) c.canvas).map
    fun l => { c with canvas := l }

/-- The channel-range invariant of the data model: all four channels of a
pixel lie in [0, 1]. -/
def validColor (p : RgbaColor) : Prop :=
  0 ≤ p.r ∧ p.r ≤ 1 ∧ 0 ≤ p.g ∧ p.g ≤ 1 ∧ 0 ≤ p.b ∧ p.b ≤ 1 ∧ 0 ≤ p.a ∧ p.a ≤ 1

instance (p : RgbaColor) : Decidable (validColor p) := by
  unfold validColor; infer_instance

/-- All pixels of a canvas satisfy the channel-range invariant. -/
def validCanvas (c : Canvas) : Prop := ∀ p ∈ c.canvas, validColor p

instance (c : Canvas) : Decidable (validCanvas c) := by
  unfold validCanvas; infer_instance

/-- `ctypes.c_byte(y).value`: the low 8 bits of `y` as a signed byte. -/
def c_byte (y : ℕ) : ℤ :=
  if y % 256 < 128 then ((y % 256 : ℕ) : ℤ) else ((y % 256 : ℕ) : ℤ) - 256

/-- The source's byte arithmetic `(x - p) % 256`: Python `%` on ints agrees
with `Int.emod` for a positive modulus. -/
def bsub (x p : ℕ) : ℕ := (((x : ℤ) - (p : ℤ)) % 256).toNat

/-- `prev_scanline[i] if prev_scanline else 0`: Python truthiness makes both
a missing and an empty previous scanline yield 0.  Indexing is modelled with
`getD`; the theorems below only consider a previous scanline of the same
length as the current one (anything shorter raises `IndexError` in Python
and is outside the modelled domain). -/
def prevByte (prev : Option (List ℕ)) (i : ℕ) : ℕ :=
  match prev with
  | none => 0
  | some pl => if pl.isEmpty then 0 else pl.getD i 0

/-- `PngWriter.none_filter`: tag 0 then the scanline unchanged. -/
def none_filter (scanline : List ℕ) (_prev : Option (List ℕ)) : List ℕ :=
  0 :: scanline

/-- `PngWriter.sub_filter`: tag 1; `a` is the byte 3 to the left (0 for i < 3). -/
def sub_filter (scanline : List ℕ) (_prev : Option (List ℕ)) : List ℕ :=
  1 :: (List.range scanline.length).map fun i =>
    bsub (scanline.getD i 0) (if i < 3 then 0 else scanline.getD (i - 3) 0)

/-- `PngWriter.up_filter`: tag 2; `b` is the corresponding byte above. -/
def up_filter (scanline : List ℕ) (prev : Option (List ℕ)) : List ℕ :=
  2 :: (List.range scanline.length).map fun i =>
    bsub (scanline.getD i 0) (prevByte prev i)

/-- `PngWriter.average_filter`: tag 3; predictor `floor((a + b) / 2)`
(exact for the byte range, so natural division). -/
def average_filter (scanline : List ℕ) (prev : Option (List ℕ)) : List ℕ :=
  3 :: (List.range scanline.length).map fun i =>
    bsub (scanline.getD i 0)
      (((if i < 3 then 0 else scanline.getD (i - 3) 0) + prevByte prev i) / 2)

/-- The predictor choice inside `PngWriter.paeth_filter`:
`p = a + b - c`, then `if pa <= pb and pa <= pc: a / elif pb <= pc: b /
else: c`. -/
def paethPredictor (a b c : ℕ) : ℕ :=
  let p : ℤ := (a : ℤ) + (b : ℤ) - (c : ℤ)
  let pa := (p - (a : ℤ)).natAbs
  let pb := (p - (b : ℤ)).natAbs
  let pc := (p - (c : ℤ)).natAbs
  if pa ≤ pb ∧ pa ≤ pc then a else if pb ≤ pc then b else c

/-- `PngWriter.paeth_filter`: tag 4; a is 3 left in the same line, b above,
c 3 left in the previous line (b and c are 0 when the previous line is
missing or empty, matching the `if prev_scanline:` truthiness test). -/
def paeth_filter (scanline : List ℕ) (prev : Option (List ℕ)) : List ℕ :=
  4 :: (List.range scanline.length).map fun i =>
    let a : ℕ := if i < 3 then 0 else scanline.getD (i - 3) 0
    let b : ℕ := prevByte prev i
    let c : ℕ := if i < 3 then 0 else prevByte prev (i - 3)
    bsub (scanline.getD i 0) (paethPredictor a b c)

/-- The scoring lambda of `process_image_data`:
`reduce(lambda x, y: x + abs(c_byte(y).value), line[1:])`.
`reduce` without an initializer seeds the accumulator with the FIRST element
of `line[1:]` taken raw (it is never passed through `c_byte`), and raises a
`TypeError` (`none`) when `line[1:]` is empty. -/
def min_sum_of_abs_diff (line : List ℕ) : Option ℤ :=
  match line.drop 1 with
  | [] => none
  | y :: ys => some (ys.foldl (fun acc z => acc + ((c_byte z).natAbs : ℤ)) (y : ℤ))

/-- Python's `sorted` is stable, so `sorted(results, key=lambda t: t[1])[0]`
is the first element attaining the minimal score: a left fold that replaces
the incumbent only on a strictly smaller score. -/
def better (best cand : List ℕ × ℤ) : List ℕ × ℤ :=
  if cand.2 < best.2 then cand else best

/-- The per-scanline body of the adaptive branch of `process_image_data`:
the five candidates in declaration order (None, Sub, Up, Average, Paeth),
each scored, then `ranking[0][0]`. -/
def selectLine (line : List ℕ) (prev : Option (List ℕ)) : Option (List ℕ) :=
  let c0 := none_filter line prev
  let c1 := sub_filter line prev
  let c2 := up_filter line prev
  let c3 := average_filter line prev
  let c4 := paeth_filter line prev
  match min_sum_of_abs_diff c0, min_sum_of_abs_diff c1, min_sum_of_abs_diff c2,
      min_sum_of_abs_diff c3, min_sum_of_abs_diff c4 with
  | some s0, some s1, some s2, some s3, some s4 =>
    some (better (better (better (better (c0, s0) (c1, s1)) (c2, s2)) (c3, s3)) (c4, s4)).1
  | _, _, _, _, _ => none

/-- `b"".join(processed)`. -/
def joinBytes : List (List ℕ) → List ℕ
  | [] => []
  | l :: ls => l ++ joinBytes ls

/-- `PngWriter.process_image_data`, parameterised by the external deflate
compressor (`zlib.compress(..., 9)`; per the spec an opaque, deterministic,
total collaborator).  The length guard raises `ValueError` (`none`) on
mismatch; with `w = 0` the scanline comprehension's `range(0, w*h*3, 0)`
raises `ValueError` (zero step) even when the length matches. -/
def process_image_data (compressFn : List ℕ → List ℕ) (w h : ℕ)
    (dynamic_filtering : Bool) (image : List ℕ) : Option (List ℕ) :=
  if image.length ≠ w * h * 3 then none
  else if w = 0 then none
  else
    let scanlines := (List.range h).map fun k => (image.drop (k * (w * 3))).take (w * 3)
    if dynamic_filtering then
      ((List.range h).mapM fun k =>
          selectLine (scanlines.getD k [])
            (if k = 0 then none else some (scanlines.getD (k - 1) []))).map
        fun processed => compressFn (joinBytes processed)
    else
      some (compressFn (joinBytes ((List.range h).map fun k =>
        paeth_filter (scanlines.getD k [])
          (if k = 0 then none else some (scanlines.getD (k - 1) [])))))

/-- One step of the CRC-32 table construction (polynomial 0xEDB88320, the
standard reflected PNG/zip polynomial). -/
def crcStep (c : ℕ) : ℕ :=
  if c % 2 = 1 then 0xEDB88320 ^^^ (c >>> 1) else c >>> 1

/-- zlib's CRC-32 table entry for index `n`: eight polynomial steps. -/
def crcTable (n : ℕ) : ℕ := crcStep^[8] n

/-- One byte of the CRC-32 loop: `c = table[(c ^ b) & 0xff] ^ (c >> 8)`. -/
def crcUpdate (c b : ℕ) : ℕ := crcTable ((c ^^^ b) &&& 255) ^^^ (c >>> 8)

/-- `zlib.crc32(data, value)`: the standard reflected CRC-32 with pre- and
post-complement. -/
def crc32 (data : List ℕ) (value : ℕ) : ℕ :=
  0xFFFFFFFF ^^^ data.foldl crcUpdate (value ^^^ 0xFFFFFFFF)

/-- The 4 big-endian bytes of `pack("!I", n)`. -/
def be32 (n : ℕ) : List ℕ :=
  [n / 2 ^ 24 % 256, n / 2 ^ 16 % 256, n / 2 ^ 8 % 256, n % 256]

/-- `pack("!I", n)` raises `struct.error` for `n ≥ 2^32`. -/
def packI (n : ℕ) : Option (List ℕ) :=
  if n < 2 ^ 32 then some (be32 n) else none

/-- The `4s` field of `pack("!I4s", ...)`: truncate or null-pad to 4 bytes. -/
def pack4s (t : List ℕ) : List ℕ :=
  t.take 4 ++ List.replicate (4 - t.length) 0

/-- `PngWriter.write_chunk(type, data)`: the bytes the three `stream.write`
calls append, in order: `pack("!I4s", len(data), type)`, the payload, then
`pack("!I", crc32(data, crc32(type)))`.  The only fallible step is the
length pack, which fails before anything is written. -/
def write_chunk (type : List ℕ) (data : List ℕ) : Option (List ℕ) :=
  match packI data.length with
  | none => none
  | some lenBytes =>
    match packI (crc32 data (crc32 type 0)) with
    | none => none
    | some tail => some (lenBytes ++ pack4s type ++ data ++ tail)

/-- `PngWriter.write_idat(image)`: filter and compress, then an IDAT chunk
(type tag `b"IDAT"` = [73, 68, 65, 84]). -/
def write_idat (compressFn : List ℕ → List ℕ) (w h : ℕ) (dyn : Bool)
    (image : List ℕ) : Option (List ℕ) :=
  (process_image_data compressFn w h dyn image).bind fun d =>
    write_chunk [73, 68, 65, 84] d

/-- Modelled from the spec (wording of claims C2 and C7): the adaptive score
of a filtered scanline is the sum, over every output byte except the leading
tag byte, of the absolute value of the byte read as a signed 8-bit value. -/
def specAbsScore (line : List ℕ) : ℤ :=
  (line.drop 1).foldl (fun acc z => acc + ((c_byte z).natAbs : ℤ)) 0

/-- Modelled from the spec (wording of claim C6): among the candidates a, b,
c in that order, the one minimising its distance to `p = a + b - c`, earlier
candidates winning ties (a stable minimum over the ordered candidate list). -/
def paethPredictorSpec (a b c : ℕ) : ℕ :=
  let p : ℤ := (a : ℤ) + (b : ℤ) - (c : ℤ)
  ([((p - (b : ℤ)).natAbs, b), ((p - (c : ℤ)).natAbs, c)].foldl
    (fun best cand => if cand.1 < best.1 then cand else best)
    ((p - (a : ℤ)).natAbs, a)).2

/-- Modelled from the spec (wording of claim C6): tag byte 4 followed by
`(x[i] - pr) mod 256`, `pr` the spec's Paeth predictor of a (3 positions
left, 0 if none), b (corresponding byte of the previous line, 0 if none) and
c (3 positions left in the previous line, 0 if none). -/
def paethFilterSpec (scanline : List ℕ) (prev : Option (List ℕ)) : List ℕ :=
  4 :: (List.range scanline.length).map fun i =>
    let a : ℕ := if i < 3 then 0 else scanline.getD (i - 3) 0
    let b : ℕ := match prev with | none => 0 | some pl => pl.getD i 0
    let c : ℕ := if i < 3 then 0
      else match prev with | none => 0 | some pl => pl.getD (i - 3) 0
    bsub (scanline.getD i 0) (paethPredictorSpec a b c)

/-- Modelled from the spec (wording of claim C9): an opaque pixel
contributes `floor(channel * 255)` for r, g, b. -/
def pixTriple (col : RgbaColor) : List ℕ :=
  [⌊col.r * 255⌋.toNat, ⌊col.g * 255⌋.toNat, ⌊col.b * 255⌋.toNat]

/-- Modelled from the spec (wording of claim C9): the flattened output is
the concatenation of the pixels' triples in row-major order. -/
def flat3 : List RgbaColor → List ℕ
  | [] => []
  | p :: ps => pixTriple p ++ flat3 ps

/-! ## Helper lemmas -/

theorem importRgbGo_eq_none (data : List ℕ) :
    ∀ (idxs : List ℕ) (st : List RgbaColor),
      (∃ i ∈ idxs, data.length < i + 3) → importRgbGo data idxs st = none := by
  intro idxs
  induction idxs with
  | nil => rintro st ⟨i, hi, -⟩; cases hi
  | cons j rest ih =>
    rintro st ⟨i, hi, hlen⟩
    rcases List.mem_cons.mp hi with rfl | hmem
    · unfold importRgbGo unpack3
      rw [if_neg (by omega)]
    · unfold importRgbGo
      cases hu : unpack3 data j with
      | none => rfl
      | some v =>
        obtain ⟨r, g, b⟩ := v
        dsimp only
        cases hc : mkRgbaColor ((r : ℚ) / 255) ((g : ℚ) / 255) ((b : ℚ) / 255) 1 with
        | none => rfl
        | some col =>
          dsimp only
          by_cases hlt : j / 3 < st.length
          · rw [if_pos hlt]; exact ih _ ⟨i, hmem, hlen⟩
          · rw [if_neg hlt]

theorem importRgbaGo_eq_none (data : List ℕ) :
    ∀ (idxs : List ℕ) (st : List RgbaColor),
      (∃ i ∈ idxs, data.length < i + 4) → importRgbaGo data idxs st = none := by
  intro idxs
  induction idxs with
  | nil => rintro st ⟨i, hi, -⟩; cases hi
  | cons j rest ih =>
    rintro st ⟨i, hi, hlen⟩
    rcases List.mem_cons.mp hi with rfl | hmem
    · unfold importRgbaGo unpack4
      rw [if_neg (by omega)]
    · unfold importRgbaGo
      cases hu : unpack4 data j with
      | none => rfl
      | some v =>
        obtain ⟨r, g, b, a⟩ := v
        dsimp only
        cases hc : mkRgbaColor ((r : ℚ) / 255) ((g : ℚ) / 255) ((b : ℚ) / 255) ((a : ℚ) / 255) with
        | none => rfl
        | some col =>
          dsimp only
          by_cases hlt : j / 4 < st.length
          · rw [if_pos hlt]; exact ih _ ⟨i, hmem, hlen⟩
          · rw [if_neg hlt]

theorem paethPredictor_eq_spec (a b c : ℕ) :
    paethPredictor a b c = paethPredictorSpec a b c := by
  unfold paethPredictor paethPredictorSpec
  simp only [List.foldl]
  split_ifs <;> omega

/-! ## C6: the Paeth filter matches the spec description -/

/-- C6 — confirmed.  For every scanline, and previous scanline of the same
length (or no previous scanline), `paeth_filter` produces the tag byte 4
followed by `(x[i] - pr) mod 256` with `pr` the spec's Paeth predictor:
the candidate among a, b, c minimising its distance to `p = a + b - c`,
ties favouring a over b over c. -/
theorem c6_paeth_matches_spec (scanline : List ℕ) (prev : Option (List ℕ))
    (hlen : ∀ pl, prev = some pl → pl.length = scanline.length) :
    paeth_filter scanline prev = paethFilterSpec scanline prev := by
  unfold paeth_filter paethFilterSpec
  refine congrArg _ (List.map_congr_left fun i hi => ?_)
  have hilt : i < scanline.length := List.mem_range.mp hi
  cases prev with
  | none => simp only [prevByte, paethPredictor_eq_spec]
  | some pl =>
    have hpl : pl.length = scanline.length := hlen pl rfl
    have hne : pl.isEmpty = false := by
      rw [List.isEmpty_eq_false_iff_exists_mem]
      rcases pl with _ | ⟨x, xs⟩
      · simp at hpl; omega
      · exact ⟨x, List.mem_cons_self x xs⟩
    simp only [prevByte, hne, Bool.false_eq_true, if_false, paethPredictor_eq_spec]

/-- C6 witness: the theorem applied to a concrete scanline and previous
scanline of equal length. -/
theorem c6_witness :
    paeth_filter [10, 20, 30, 5, 0, 255] (some [1, 2, 3, 4, 5, 6]) =
      paethFilterSpec [10, 20, 30, 5, 0, 255] (some [1, 2, 3, 4, 5, 6]) :=
  c6_paeth_matches_spec [10, 20, 30, 5, 0, 255] (some [1, 2, 3, 4, 5, 6])
    (by intro pl h; cases h; rfl)

/-! ## C2: the adaptive score (code bug: `reduce` without initializer) -/

/-- C2 — code bug.  On the 1 x 1 image `[200, 0, 0]` the None candidate is
`[0, 200, 0, 0]`; the source's scoring lambda
(`reduce` with no initializer) seeds the accumulator with the raw first data
byte and yields 200, while the score the claim and spec describe (every
non-tag byte as a signed 8-bit value, absolute values summed) is 56. -/
theorem c2_score_eval :
    min_sum_of_abs_diff (none_filter [200, 0, 0] none) = some 200 ∧
    specAbsScore (none_filter [200, 0, 0] none) = 56 := by decide

/-! ## C7: adaptive selection (code bug inherited from the C2 scoring slip) -/

/-- C7 — code bug.  On the 1 x 2 image `[250, 0, 0, 100, 0, 0]` the adaptive
mode emits the None candidate `[0, 100, 0, 0]` for the second scanline, yet
the Average candidate `[3, 231, 0, 0]` has the strictly smaller
absolute-value score (25 versus 100): the selection does not minimise the
score the claim describes, because the computed score reads the first data
byte raw (see C2). -/
theorem c7_selection_eval :
    process_image_data (fun l => l) 1 2 true [250, 0, 0, 100, 0, 0] =
      some (none_filter [250, 0, 0] none ++ none_filter [100, 0, 0] (some [250, 0, 0])) ∧
    average_filter [100, 0, 0] (some [250, 0, 0]) = [3, 231, 0, 0] ∧
    specAbsScore [3, 231, 0, 0] < specAbsScore (none_filter [100, 0, 0] (some [250, 0, 0])) := by
  decide

/-! ## C3: import of a buffer with a trailing partial pixel -/

/-- C3 counterexample: the claim says an import whose buffer length is not a
multiple of the stride does not fail; on the concrete 1-byte buffer `[0]`
`import_rgb_data` fails (struct.error from `unpack_from`). -/
theorem c3_counterexample :
    Canvas.import_rgb_data (canvasNew 1 1 ⟨0, 0, 0, 1⟩) [0] = none := by
  with_unfolding_all decide

/-- C3 — corrected.  When the buffer length is not a multiple of the pixel
stride (3 for `import_rgb_data`, 4 for `import_rgba_data`) the import fails
(`unpack_from` raises `struct.error` on the trailing partial pixel); nothing
is silently truncated. -/
theorem c3_import_partial_pixel_fails (c : Canvas) (data : List ℕ) :
    (data.length % 3 ≠ 0 → c.import_rgb_data data = none) ∧
    (data.length % 4 ≠ 0 → c.import_rgba_data data = none) := by
  constructor
  · intro h3
    unfold Canvas.import_rgb_data
    rw [importRgbGo_eq_none, Option.map_none']
    refine ⟨((data.length + 2) / 3 - 1) * 3, List.mem_map.mpr
      ⟨(data.length + 2) / 3 - 1, List.mem_range.mpr (by omega), rfl⟩, by omega⟩
  · intro h4
    unfold Canvas.import_rgba_data
    rw [importRgbaGo_eq_none, Option.map_none']
    refine ⟨((data.length + 3) / 4 - 1) * 4, List.mem_map.mpr
      ⟨(data.length + 3) / 4 - 1, List.mem_range.mpr (by omega), rfl⟩, by omega⟩

/-- C3 witness: the corrected statement applied to the 2-byte buffer
`[0, 0]`, a multiple of neither stride. -/
theorem c3_witness :
    Canvas.import_rgb_data (canvasNew 1 1 ⟨0, 0, 0, 1⟩) [0, 0] = none ∧
    Canvas.import_rgba_data (canvasNew 1 1 ⟨0, 0, 0, 1⟩) [0, 0] = none :=
  ⟨(c3_import_partial_pixel_fails _ _).1 (by decide),
   (c3_import_partial_pixel_fails _ _).2 (by decide)⟩

/-! ## C5: write_chunk layout and checksum -/

theorem crcStep_lt (c : ℕ) (h : c < 2 ^ 32) : crcStep c < 2 ^ 32 := by
  unfold crcStep
  have h1 : c >>> 1 < 2 ^ 32 := by
    rw [Nat.shiftRight_eq_div_pow]
    exact lt_of_le_of_lt (Nat.div_le_self _ _) h
  split
  · exact Nat.bitwise_lt (by norm_num) h1
  · exact h1

theorem crcTable_lt (n : ℕ) (h : n < 2 ^ 32) : crcTable n < 2 ^ 32 := by
  unfold crcTable
  have : ∀ k m, m < 2 ^ 32 → crcStep^[k] m < 2 ^ 32 := by
    intro k
    induction k with
    | zero => intro m hm; exact hm
    | succ k ih =>
      intro m hm
      rw [Function.iterate_succ_apply]
      exact ih _ (crcStep_lt m hm)
  exact this 8 n h

theorem crcUpdate_lt (c b : ℕ) (h : c < 2 ^ 32) : crcUpdate c b < 2 ^ 32 := by
  unfold crcUpdate
  have h1 : (c ^^^ b) &&& 255 < 2 ^ 32 :=
    lt_of_le_of_lt Nat.and_le_right (by norm_num)
  have h2 : c >>> 8 < 2 ^ 32 := by
    rw [Nat.shiftRight_eq_div_pow]
    exact lt_of_le_of_lt (Nat.div_le_self _ _) h
  exact Nat.bitwise_lt (crcTable_lt _ h1) h2

theorem crcFoldl_lt (data : List ℕ) :
    ∀ acc, acc < 2 ^ 32 → data.foldl crcUpdate acc < 2 ^ 32 := by
  induction data with
  | nil => intro acc h; exact h
  | cons b rest ih =>
    intro acc h
    exact ih _ (crcUpdate_lt acc b h)

theorem crc32_lt (data : List ℕ) (value : ℕ) (h : value < 2 ^ 32) :
    crc32 data value < 2 ^ 32 := by
  unfold crc32
  exact Nat.bitwise_lt (by norm_num)
    (crcFoldl_lt data _ (Nat.bitwise_lt h (by norm_num)))

/-- The zlib chaining identity the source's comment asserts:
`crc32(data, crc32(type))` equals `crc32(type + data)`. -/
theorem crc32_chain (t d : List ℕ) : crc32 d (crc32 t 0) = crc32 (t ++ d) 0 := by
  unfold crc32
  rw [Nat.zero_xor, Nat.xor_comm 0xFFFFFFFF (List.foldl crcUpdate 0xFFFFFFFF t),
    Nat.xor_cancel_right, List.foldl_append]

/-- C5 — confirmed.  For a 4-byte type tag and a payload that fits the
4-byte length field, `write_chunk` emits exactly: the big-endian 4-byte
payload length, the type tag, the payload, and the big-endian 4-byte CRC-32
of `type ++ payload`, and nothing else. -/
theorem c5_write_chunk_layout (type data : List ℕ) (ht : type.length = 4)
    (hd : data.length < 2 ^ 32) :
    write_chunk type data =
      some (be32 data.length ++ type ++ data ++ be32 (crc32 (type ++ data) 0)) := by
  unfold write_chunk packI
  rw [if_pos hd, crc32_chain,
    if_pos (crc32_lt (type ++ data) 0 (by norm_num))]
  have hp : pack4s type = type := by
    unfold pack4s
    rw [ht, ← ht, List.take_length, Nat.sub_self, List.replicate_zero, List.append_nil]
  rw [hp]

/-- C5 witness: the IEND tag with an empty payload; the resulting CRC bytes
are the well-known reference value AE 42 60 82. -/
theorem c5_witness :
    write_chunk [73, 69, 78, 68] [] =
      some (be32 (List.length ([] : List ℕ)) ++ [73, 69, 78, 68] ++ [] ++
        be32 (crc32 ([73, 69, 78, 68] ++ []) 0)) ∧
    be32 (crc32 ([73, 69, 78, 68] ++ []) 0) = [174, 66, 96, 130] :=
  ⟨c5_write_chunk_layout [73, 69, 78, 68] [] (by decide) (by norm_num), by decide⟩

/-! ## C8: when filtering-and-compression fails -/

theorem optionMapM_isSome {α β : Type} (f : α → Option β) :
    ∀ l : List α, (∀ a ∈ l, (f a).isSome) → (l.mapM f).isSome := by
  intro l
  induction l with
  | nil => intro _; rfl
  | cons a rest ih =>
    intro hall
    rw [List.mapM_cons]
    obtain ⟨b, hb⟩ := Option.isSome_iff_exists.mp (hall a (List.mem_cons_self a rest))
    obtain ⟨bs, hbs⟩ :=
      Option.isSome_iff_exists.mp (ih fun x hx => hall x (List.mem_cons_of_mem a hx))
    rw [hb, hbs]
    rfl

theorem min_sum_of_abs_diff_isSome (l : List ℕ) (hl : 2 ≤ l.length) :
    (min_sum_of_abs_diff l).isSome := by
  cases l with
  | nil => simp at hl
  | cons t l2 =>
    cases l2 with
    | nil => simp at hl
    | cons y ys => rfl

theorem selectLine_isSome (line : List ℕ) (prev : Option (List ℕ)) (hl : line ≠ []) :
    (selectLine line prev).isSome := by
  have hpos : 0 < line.length := List.length_pos.mpr hl
  obtain ⟨s0, h0⟩ := Option.isSome_iff_exists.mp
    (min_sum_of_abs_diff_isSome (none_filter line prev) (by simp [none_filter]; omega))
  obtain ⟨s1, h1⟩ := Option.isSome_iff_exists.mp
    (min_sum_of_abs_diff_isSome (sub_filter line prev) (by simp [sub_filter]; omega))
  obtain ⟨s2, h2⟩ := Option.isSome_iff_exists.mp
    (min_sum_of_abs_diff_isSome (up_filter line prev) (by simp [up_filter]; omega))
  obtain ⟨s3, h3⟩ := Option.isSome_iff_exists.mp
    (min_sum_of_abs_diff_isSome (average_filter line prev) (by simp [average_filter]; omega))
  obtain ⟨s4, h4⟩ := Option.isSome_iff_exists.mp
    (min_sum_of_abs_diff_isSome (paeth_filter line prev) (by simp [paeth_filter]; omega))
  unfold selectLine
  dsimp only
  rw [h0, h1, h2, h3, h4]
  rfl

theorem process_image_data_eq_some (compressFn : List ℕ → List ℕ) (w h : ℕ) (dyn : Bool)
    (image : List ℕ) (hw : 1 ≤ w) (hlen : image.length = w * h * 3) :
    ∃ out, process_image_data compressFn w h dyn image = some (compressFn out) := by
  unfold process_image_data
  rw [if_neg (not_not_intro hlen), if_neg (by omega : ¬w = 0)]
  dsimp only
  by_cases hd : dyn = true
  · rw [if_pos hd]
    have hall : ∀ k ∈ List.range h,
        (selectLine
          (((List.range h).map fun k => (image.drop (k * (w * 3))).take (w * 3)).getD k [])
          (if k = 0 then none
           else some (((List.range h).map fun k =>
             (image.drop (k * (w * 3))).take (w * 3)).getD (k - 1) []))).isSome := by
      intro k hk
      have hkh : k < h := List.mem_range.mp hk
      apply selectLine_isSome
      have hget : (((List.range h).map fun k =>
          (image.drop (k * (w * 3))).take (w * 3)).getD k []) =
          (image.drop (k * (w * 3))).take (w * 3) := by
        rw [List.getD_eq_getElem?_getD, List.getElem?_map, List.getElem?_range hkh]
        rfl
      rw [hget]
      apply List.length_pos.mp
      rw [List.length_take, List.length_drop, hlen]
      have h1 : k * (w * 3) + w * 3 ≤ h * (w * 3) := by
        nlinarith [Nat.mul_le_mul_right (w * 3) (show k + 1 ≤ h by omega)]
      have h3 : w * h * 3 = h * (w * 3) := by ring
      omega
    obtain ⟨outs, houts⟩ :=
      Option.isSome_iff_exists.mp (optionMapM_isSome _ (List.range h) hall)
    rw [houts]
    exact ⟨joinBytes outs, rfl⟩
  · rw [if_neg hd]
    exact ⟨_, rfl⟩

/-- C8 counterexample: with width 0 and height 1 the empty buffer has exactly
`width*height*3 = 0` bytes, yet the filtering step fails (`range(0, 0, 0)`
raises `ValueError`), so failure is not equivalent to a length mismatch. -/
theorem c8_counterexample :
    process_image_data (fun l => l) 0 1 true [] = none ∧
    List.length ([] : List ℕ) = 0 * 1 * 3 := by decide

/-- C8 — corrected.  For a positive width, `process_image_data` fails exactly
when the buffer length differs from `width*height*3` (and the length check
runs before anything else, so nothing is processed); under the same
condition, and a compressor whose output fits a chunk, `write_idat` fails
exactly then too, before writing anything.  (For width 0 the scanline
split itself fails even when the length matches — see the counterexample.) -/
theorem c8_size_mismatch_iff (compressFn : List ℕ → List ℕ) (w h : ℕ) (dyn : Bool)
    (image : List ℕ) (hw : 1 ≤ w) :
    (process_image_data compressFn w h dyn image = none ↔ image.length ≠ w * h * 3) ∧
    ((∀ l, (compressFn l).length < 2 ^ 32) →
      (write_idat compressFn w h dyn image = none ↔ image.length ≠ w * h * 3)) := by
  have hmain : process_image_data compressFn w h dyn image = none ↔
      image.length ≠ w * h * 3 := by
    constructor
    · intro hnone
      by_contra heq
      obtain ⟨out, hout⟩ := process_image_data_eq_some compressFn w h dyn image hw heq
      rw [hout] at hnone
      cases hnone
    · intro hne
      unfold process_image_data
      rw [if_pos hne]
  have hwc : ∀ d : List ℕ, d.length < 2 ^ 32 → write_chunk [73, 68, 65, 84] d ≠ none := by
    intro d hd
    unfold write_chunk packI
    rw [if_pos hd, if_pos (crc32_lt d _ (crc32_lt [73, 68, 65, 84] 0 (by norm_num)))]
    exact Option.some_ne_none _
  refine ⟨hmain, fun hcf => ?_⟩
  constructor
  · intro hnone
    by_contra heq
    obtain ⟨out, hout⟩ := process_image_data_eq_some compressFn w h dyn image hw heq
    unfold write_idat at hnone
    rw [hout] at hnone
    exact hwc (compressFn out) (hcf out) hnone
  · intro hne
    unfold write_idat
    rw [hmain.mpr hne]
    rfl

/-- C8 witness: a correctly sized 1 x 1 buffer with a trivial compressor:
neither the filtering step nor `write_idat` fails. -/
theorem c8_witness :
    process_image_data (fun _ => ([] : List ℕ)) 1 1 true [0, 0, 0] ≠ none ∧
    write_idat (fun _ => ([] : List ℕ)) 1 1 true [0, 0, 0] ≠ none := by
  have h := c8_size_mismatch_iff (fun _ => ([] : List ℕ)) 1 1 true [0, 0, 0] (by decide)
  refine ⟨fun hn => (h.1.mp hn) (by decide), fun hn => ?_⟩
  exact ((h.2 fun l => by norm_num).mp hn) (by decide)

/-! ## C1: blending a fully transparent source -/

theorem list_set_self {α : Type} :
    ∀ (l : List α) (n : ℕ) (a : α), l[n]? = some a → l.set n a = l
  | [], n, a, h => by simp at h
  | x :: xs, 0, a, h => by
    simp only [List.getElem?_cons_zero, Option.some.injEq] at h
    rw [← h]
    rfl
  | x :: xs, n + 1, a, h => by
    simp only [List.getElem?_cons_succ] at h
    show x :: xs.set n a = x :: xs
    rw [list_set_self xs n a h]

/-- Blending a transparent source pixel over a destination pixel whose alpha
clears the near-zero threshold gives back the destination pixel exactly. -/
theorem blendPixel_transparent (p d : RgbaColor) (hp : p.a = 0)
    (hd : (1 : ℚ) / 1000000 ≤ d.a) : blendPixel false p d = some d := by
  obtain ⟨dr, dg, db, da⟩ := d
  have hd2 : (1 : ℚ) / 1000000 ≤ da := hd
  have hdne : da ≠ 0 := by
    intro h0
    rw [h0] at hd2
    norm_num at hd2
  unfold blendPixel
  rw [if_neg (by rw [hp]; norm_num)]
  dsimp only
  rw [hp]
  rw [if_neg (show ¬((0 : ℚ) + da * (1 - 0) = 0) from
    fun h0 => hdne (by linear_combination h0))]
  rw [if_neg (show ¬((0 : ℚ) + da * (1 - 0) < 1 / 1000000) from
    fun hlt => by nlinarith)]
  simp only [Option.some.injEq, RgbaColor.mk.injEq]
  refine ⟨?_, ?_, ?_, by ring⟩ <;> field_simp

theorem blendGo_transparent (sw dw dh : ℕ) (hsw : sw ≠ 0) (ox oy : ℤ) :
    ∀ (rest : List RgbaColor) (i : ℕ) (st : List RgbaColor),
      (∀ p ∈ rest, p.a = 0) →
      (∀ k, k < rest.length →
        ¬(ox + ((i + k) % sw : ℕ) < 0 ∨ (dw : ℤ) - 1 < ox + ((i + k) % sw : ℕ) ∨
          oy + ((i + k) / sw : ℕ) < 0 ∨ (dh : ℤ) - 1 < oy + ((i + k) / sw : ℕ)) →
        ∃ d, st[((oy + ((i + k) / sw : ℕ)) * dw + (ox + ((i + k) % sw : ℕ))).toNat]? = some d ∧
          (1 : ℚ) / 1000000 ≤ d.a) →
      blendGo sw dw dh ox oy false rest i st = some st := by
  intro rest
  induction rest with
  | nil => intro i st _ _; rfl
  | cons p rest ih =>
    intro i st htrans hcov
    have hcov0 := hcov 0 (by simp)
    rw [Nat.add_zero] at hcov0
    have hcovS : ∀ k, k < rest.length →
        ¬(ox + ((i + 1 + k) % sw : ℕ) < 0 ∨ (dw : ℤ) - 1 < ox + ((i + 1 + k) % sw : ℕ) ∨
          oy + ((i + 1 + k) / sw : ℕ) < 0 ∨ (dh : ℤ) - 1 < oy + ((i + 1 + k) / sw : ℕ)) →
        ∃ d, st[((oy + ((i + 1 + k) / sw : ℕ)) * dw +
            (ox + ((i + 1 + k) % sw : ℕ))).toNat]? = some d ∧
          (1 : ℚ) / 1000000 ≤ d.a := by
      intro k hk
      have := hcov (k + 1) (by simp; omega)
      rw [show i + (k + 1) = i + 1 + k by omega] at this
      exact this
    unfold blendGo
    rw [if_neg hsw]
    dsimp only
    by_cases hob : ox + ((i % sw : ℕ) : ℤ) < 0 ∨ (dw : ℤ) - 1 < ox + ((i % sw : ℕ) : ℤ) ∨
        oy + ((i / sw : ℕ) : ℤ) < 0 ∨ (dh : ℤ) - 1 < oy + ((i / sw : ℕ) : ℤ)
    · rw [if_pos hob]
      exact ih (i + 1) st (fun q hq => htrans q (List.mem_cons_of_mem p hq)) hcovS
    · rw [if_neg hob]
      obtain ⟨d, hread, hda⟩ := hcov0 hob
      rw [hread]
      dsimp only
      rw [blendPixel_transparent p d (htrans p (List.mem_cons_self p rest)) hda]
      dsimp only
      rw [list_set_self st _ d hread]
      exact ih (i + 1) st (fun q hq => htrans q (List.mem_cons_of_mem p hq)) hcovS

/-- C1 counterexample: the claim says blend with a fully transparent source
always succeeds and leaves the destination unchanged; here the destination
pixel has alpha 1/2000000: the blend succeeds but resets the pixel to
(0, 0, 0, 0) (the near-zero-alpha collapse runs after compositing), so the
destination changes.  (A destination pixel of alpha exactly 0 makes the same
call raise `ZeroDivisionError` instead.) -/
theorem c1_counterexample :
    Canvas.blend ⟨1, 1, ⟨1, 1, 1, 1⟩, [⟨1/2, 1/2, 1/2, 1/2000000⟩]⟩
        ⟨1, 1, ⟨0, 0, 0, 0⟩, [⟨0, 0, 0, 0⟩]⟩ 0 0 false =
      some ⟨1, 1, ⟨1, 1, 1, 1⟩, [⟨0, 0, 0, 0⟩]⟩ ∧
    (⟨0, 0, 0, 0⟩ : RgbaColor) ≠ ⟨1/2, 1/2, 1/2, 1/2000000⟩ := by
  constructor
  · with_unfolding_all decide
  · with_unfolding_all decide

/-- C1 — corrected.  For every destination and fully transparent source
canvas (both satisfying the length invariant) and all offsets, the blend
succeeds and leaves every destination pixel exactly unchanged PROVIDED every
destination pixel covered by an in-bounds source pixel has alpha at least
0.000001.  (Below that threshold the near-zero collapse rewrites the covered
pixel to (0,0,0,0); at alpha exactly 0 the blend raises
`ZeroDivisionError`.) -/
theorem c1_blend_transparent_unchanged (c src : Canvas) (ox oy : ℤ)
    (hc : c.canvas.length = c.width * c.height)
    (hs : src.canvas.length = src.width * src.height)
    (htrans : ∀ p ∈ src.canvas, p.a = 0)
    (hcov : ∀ (i : ℕ) (d : RgbaColor), i < src.canvas.length →
      ¬(ox + ((i % src.width : ℕ) : ℤ) < 0 ∨
        (c.width : ℤ) - 1 < ox + ((i % src.width : ℕ) : ℤ) ∨
        oy + ((i / src.width : ℕ) : ℤ) < 0 ∨
        (c.height : ℤ) - 1 < oy + ((i / src.width : ℕ) : ℤ)) →
      c.canvas[((oy + ((i / src.width : ℕ) : ℤ)) * c.width +
        (ox + ((i % src.width : ℕ) : ℤ))).toNat]? = some d →
      (1 : ℚ) / 1000000 ≤ d.a) :
    Canvas.blend c src ox oy false = some c := by
  by_cases hsw : src.width = 0
  · have hempty : src.canvas = [] := by
      rw [hsw] at hs
      simp only [Nat.zero_mul] at hs
      exact List.eq_nil_of_length_eq_zero hs
    unfold Canvas.blend
    rw [hempty]
    rfl
  · unfold Canvas.blend
    rw [blendGo_transparent src.width c.width c.height hsw ox oy src.canvas 0 c.canvas
      htrans ?_]
    · rfl
    · intro k hk hob
      rw [Nat.zero_add] at hob ⊢
      push_neg at hob
      obtain ⟨h1, h2, h3, h4⟩ := hob
      have hWnn : (0 : ℤ) ≤ (c.width : ℤ) := by positivity
      have hTnn : 0 ≤ (oy + ((k / src.width : ℕ) : ℤ)) * (c.width : ℤ) +
          (ox + ((k % src.width : ℕ) : ℤ)) := by
        have := mul_nonneg h3 hWnn
        linarith
      have hTlt : (oy + ((k / src.width : ℕ) : ℤ)) * (c.width : ℤ) +
          (ox + ((k % src.width : ℕ) : ℤ)) < ((c.width * c.height : ℕ) : ℤ) := by
        rw [Nat.cast_mul]
        nlinarith [mul_le_mul_of_nonneg_right (show oy + ((k / src.width : ℕ) : ℤ) ≤
          (c.height : ℤ) - 1 by linarith) hWnn]
      have hib : ((oy + ((k / src.width : ℕ) : ℤ)) * (c.width : ℤ) +
          (ox + ((k % src.width : ℕ) : ℤ))).toNat < c.canvas.length := by
        rw [hc]
        omega
      refine ⟨c.canvas.get ⟨_, hib⟩, List.getElem?_eq_getElem hib, ?_⟩
      exact hcov k _ hk (by push_neg; exact ⟨h1, h2, h3, h4⟩)
        (List.getElem?_eq_getElem hib)

/-- C1 witness: a 1 x 1 opaque destination pixel, a 1 x 1 fully transparent
source, offsets (0, 0): the blend succeeds and returns the destination
unchanged. -/
theorem c1_witness :
    Canvas.blend ⟨1, 1, ⟨0, 0, 0, 1⟩, [⟨1/2, 1/3, 1/4, 1⟩]⟩
      ⟨1, 1, ⟨0, 0, 0, 0⟩, [⟨1, 0, 0, 0⟩]⟩ 0 0 false =
      some ⟨1, 1, ⟨0, 0, 0, 1⟩, [⟨1/2, 1/3, 1/4, 1⟩]⟩ := by
  apply c1_blend_transparent_unchanged
  · rfl
  · rfl
  · intro p hp
    rw [List.mem_singleton] at hp
    subst hp
    rfl
  · intro i d _ _ hread
    have hmem := List.getElem?_mem hread
    rw [List.mem_singleton] at hmem
    subst hmem
    with_unfolding_all decide

/-! ## C10: the channel-range invariant is preserved by every operation -/

theorem mkRgbaColor_valid (r g b a : ℚ) (col : RgbaColor)
    (h : mkRgbaColor r g b a = some col) : validColor col := by
  unfold mkRgbaColor at h
  by_cases h1 : r < 0 ∨ 1 < r
  · rw [if_pos h1] at h; cases h
  rw [if_neg h1] at h
  by_cases h2 : g < 0 ∨ 1 < g
  · rw [if_pos h2] at h; cases h
  rw [if_neg h2] at h
  by_cases h3 : b < 0 ∨ 1 < b
  · rw [if_pos h3] at h; cases h
  rw [if_neg h3] at h
  by_cases h4 : a < 0 ∨ 1 < a
  · rw [if_pos h4] at h; cases h
  rw [if_neg h4] at h
  injection h with h
  subst h
  push_neg at h1 h2 h3 h4
  exact ⟨by linarith [h1.1], by linarith [h1.2], by linarith [h2.1], by linarith [h2.2],
    by linarith [h3.1], by linarith [h3.2], by linarith [h4.1], by linarith [h4.2]⟩

theorem blendPixel_valid (ign : Bool) (s d d2 : RgbaColor)
    (hs : validColor s) (hd : validColor d) (h : blendPixel ign s d = some d2) :
    validColor d2 := by
  obtain ⟨hsr0, hsr1, hsg0, hsg1, hsb0, hsb1, hsa0, hsa1⟩ := hs
  obtain ⟨hdr0, hdr1, hdg0, hdg1, hdb0, hdb1, hda0, hda1⟩ := hd
  unfold blendPixel at h
  by_cases hcond : ign = true ∨ (999999 : ℚ) / 1000000 ≤ s.a
  · rw [if_pos hcond] at h
    injection h with h
    subst h
    exact ⟨hsr0, hsr1, hsg0, hsg1, hsb0, hsb1, hsa0, hsa1⟩
  · rw [if_neg hcond] at h
    dsimp only at h
    by_cases hna : s.a + d.a * (1 - s.a) = 0
    · rw [if_pos hna] at h; cases h
    · rw [if_neg hna] at h
      have hna_nn : 0 ≤ s.a + d.a * (1 - s.a) := by nlinarith
      have hna_pos : 0 < s.a + d.a * (1 - s.a) := lt_of_le_of_ne hna_nn (Ne.symm hna)
      have hna_le : s.a + d.a * (1 - s.a) ≤ 1 := by nlinarith
      by_cases hlt : s.a + d.a * (1 - s.a) < 1 / 1000000
      · rw [if_pos hlt] at h
        injection h with h
        subst h
        exact ⟨le_refl 0, by norm_num, le_refl 0, by norm_num, le_refl 0, by norm_num,
          le_refl 0, by norm_num⟩
      · rw [if_neg hlt] at h
        injection h with h
        subst h
        have key : ∀ sc dc : ℚ, 0 ≤ sc → sc ≤ 1 → 0 ≤ dc → dc ≤ 1 →
            0 ≤ (sc * s.a + dc * d.a * (1 - s.a)) / (s.a + d.a * (1 - s.a)) ∧
            (sc * s.a + dc * d.a * (1 - s.a)) / (s.a + d.a * (1 - s.a)) ≤ 1 := by
          intro sc dc hsc0 hsc1 hdc0 hdc1
          have e2 : 0 ≤ (1 : ℚ) - s.a := by linarith
          have e1 : 0 ≤ sc * s.a := mul_nonneg hsc0 hsa0
          have e3 : 0 ≤ dc * d.a * (1 - s.a) := mul_nonneg (mul_nonneg hdc0 hda0) e2
          have e4 : 0 ≤ (1 - sc) * s.a := mul_nonneg (by linarith) hsa0
          have e5 : 0 ≤ (1 - dc) * (d.a * (1 - s.a)) :=
            mul_nonneg (by linarith) (mul_nonneg hda0 e2)
          constructor
          · exact div_nonneg (by linarith) hna_nn
          · rw [div_le_one hna_pos]
            nlinarith [e4, e5]
        exact ⟨(key s.r d.r hsr0 hsr1 hdr0 hdr1).1, (key s.r d.r hsr0 hsr1 hdr0 hdr1).2,
          (key s.g d.g hsg0 hsg1 hdg0 hdg1).1, (key s.g d.g hsg0 hsg1 hdg0 hdg1).2,
          (key s.b d.b hsb0 hsb1 hdb0 hdb1).1, (key s.b d.b hsb0 hsb1 hdb0 hdb1).2,
          hna_nn, hna_le⟩

theorem blendGo_valid (sw dw dh : ℕ) (ox oy : ℤ) (ign : Bool) :
    ∀ (rest : List RgbaColor) (i : ℕ) (st st2 : List RgbaColor),
      (∀ p ∈ rest, validColor p) → (∀ p ∈ st, validColor p) →
      blendGo sw dw dh ox oy ign rest i st = some st2 → ∀ p ∈ st2, validColor p := by
  intro rest
  induction rest with
  | nil =>
    intro i st st2 _ hst h
    injection h with h
    subst h
    exact hst
  | cons p rest ih =>
    intro i st st2 hrest hst h
    unfold blendGo at h
    by_cases hsw : sw = 0
    · rw [if_pos hsw] at h; cases h
    · rw [if_neg hsw] at h
      dsimp only at h
      by_cases hob : ox + ((i % sw : ℕ) : ℤ) < 0 ∨ (dw : ℤ) - 1 < ox + ((i % sw : ℕ) : ℤ) ∨
          oy + ((i / sw : ℕ) : ℤ) < 0 ∨ (dh : ℤ) - 1 < oy + ((i / sw : ℕ) : ℤ)
      · rw [if_pos hob] at h
        exact ih (i + 1) st st2 (fun q hq => hrest q (List.mem_cons_of_mem p hq)) hst h
      · rw [if_neg hob] at h
        cases hread : st[((oy + ((i / sw : ℕ) : ℤ)) * dw + (ox + ((i % sw : ℕ) : ℤ))).toNat]? with
        | none => rw [hread] at h; cases h
        | some d =>
          rw [hread] at h
          dsimp only at h
          cases hbp : blendPixel ign p d with
          | none => rw [hbp] at h; cases h
          | some d2 =>
            rw [hbp] at h
            dsimp only at h
            refine ih (i + 1) _ st2 (fun q hq => hrest q (List.mem_cons_of_mem p hq)) ?_ h
            intro q hq
            rcases List.mem_or_eq_of_mem_set hq with hq2 | rfl
            · exact hst q hq2
            · exact blendPixel_valid ign p d q (hrest p (List.mem_cons_self p rest))
                (hst d (List.getElem?_mem hread)) hbp

theorem importRgbGo_valid (data : List ℕ) :
    ∀ (idxs : List ℕ) (st st2 : List RgbaColor), (∀ p ∈ st, validColor p) →
      importRgbGo data idxs st = some st2 → ∀ p ∈ st2, validColor p := by
  intro idxs
  induction idxs with
  | nil =>
    intro st st2 hst h
    injection h with h
    subst h
    exact hst
  | cons j rest ih =>
    intro st st2 hst h
    unfold importRgbGo at h
    cases hu : unpack3 data j with
    | none => rw [hu] at h; cases h
    | some v =>
      obtain ⟨r, g, b⟩ := v
      rw [hu] at h
      dsimp only at h
      cases hc : mkRgbaColor ((r : ℚ) / 255) ((g : ℚ) / 255) ((b : ℚ) / 255) 1 with
      | none => rw [hc] at h; cases h
      | some col =>
        rw [hc] at h
        dsimp only at h
        by_cases hlt : j / 3 < st.length
        · rw [if_pos hlt] at h
          refine ih _ st2 ?_ h
          intro q hq
          rcases List.mem_or_eq_of_mem_set hq with hq2 | rfl
          · exact hst q hq2
          · exact mkRgbaColor_valid _ _ _ _ q hc
        · rw [if_neg hlt] at h; cases h

theorem importRgbaGo_valid (data : List ℕ) :
    ∀ (idxs : List ℕ) (st st2 : List RgbaColor), (∀ p ∈ st, validColor p) →
      importRgbaGo data idxs st = some st2 → ∀ p ∈ st2, validColor p := by
  intro idxs
  induction idxs with
  | nil =>
    intro st st2 hst h
    injection h with h
    subst h
    exact hst
  | cons j rest ih =>
    intro st st2 hst h
    unfold importRgbaGo at h
    cases hu : unpack4 data j with
    | none => rw [hu] at h; cases h
    | some v =>
      obtain ⟨r, g, b, a⟩ := v
      rw [hu] at h
      dsimp only at h
      cases hc : mkRgbaColor ((r : ℚ) / 255) ((g : ℚ) / 255) ((b : ℚ) / 255) ((a : ℚ) / 255) with
      | none => rw [hc] at h; cases h
      | some col =>
        rw [hc] at h
        dsimp only at h
        by_cases hlt : j / 4 < st.length
        · rw [if_pos hlt] at h
          refine ih _ st2 ?_ h
          intro q hq
          rcases List.mem_or_eq_of_mem_set hq with hq2 | rfl
          · exact hst q hq2
          · exact mkRgbaColor_valid _ _ _ _ q hc
        · rw [if_neg hlt] at h; cases h

theorem optionMapM_mem {α β : Type} (f : α → Option β) :
    ∀ (l : List α) (out : List β), l.mapM f = some out →
      ∀ b ∈ out, ∃ a ∈ l, f a = some b := by
  intro l
  induction l with
  | nil =>
    intro out h b hb
    rw [List.mapM_nil] at h
    injection h with h
    subst h
    cases hb
  | cons a rest ih =>
    intro out h b hb
    rw [List.mapM_cons] at h
    cases hfa : f a with
    | none => rw [hfa] at h; cases h
    | some b0 =>
      rw [hfa] at h
      cases hrest : rest.mapM f with
      | none => rw [hrest] at h; cases h
      | some bs =>
        rw [hrest] at h
        injection h with h
        subst h
        rcases List.mem_cons.mp hb with rfl | hb2
        · exact ⟨a, List.mem_cons_self a rest, hfa⟩
        · obtain ⟨a2, ha2, hfa2⟩ := ih bs hrest b hb2
          exact ⟨a2, List.mem_cons_of_mem a ha2, hfa2⟩

theorem pixelAt_mem (c : Canvas) (x y : ℤ) (p : RgbaColor)
    (h : c.pixelAt x y = some p) : p ∈ c.canvas := by
  unfold Canvas.pixelAt Canvas.coordinate_to_index at h
  by_cases hob : x < 0 ∨ (c.width : ℤ) - 1 < x ∨ y < 0 ∨ (c.height : ℤ) - 1 < y
  · rw [if_pos hob] at h; cases h
  · rw [if_neg hob] at h
    exact List.getElem?_mem h

/-- C10 — confirmed.  Every canvas operation keeps all four channels of
every pixel inside [0, 1] (exact rational arithmetic): construction and
clear (pixels are copies of a valid background), blend with any flags and
offsets (the compositing quotient stays in range because the numerator never
exceeds the new alpha), the two imports (stored colors pass RgbaColor
validation), and rect extraction (pixels are copies of source pixels). -/
theorem c10_channel_range_invariant :
    (∀ (w h : ℕ) (bg : RgbaColor), validColor bg → validCanvas (canvasNew w h bg)) ∧
    (∀ c : Canvas, validColor c.bgcolor → validCanvas (Canvas.clear c)) ∧
    (∀ (c src : Canvas) (ox oy : ℤ) (ign : Bool) (res : Canvas),
      validCanvas c → validCanvas src → Canvas.blend c src ox oy ign = some res →
      validCanvas res) ∧
    (∀ (c : Canvas) (data : List ℕ) (res : Canvas), validCanvas c →
      Canvas.import_rgb_data c data = some res → validCanvas res) ∧
    (∀ (c : Canvas) (data : List ℕ) (res : Canvas), validCanvas c →
      Canvas.import_rgba_data c data = some res → validCanvas res) ∧
    (∀ (c : Canvas) (x y w h : ℤ) (res : Canvas), validCanvas c →
      Canvas.rect c x y w h = some res → validCanvas res) := by
  refine ⟨?_, ?_, ?_, ?_, ?_, ?_⟩
  · intro w h bg hbg p hp
    rw [List.eq_of_mem_replicate hp]
    exact hbg
  · intro c hbg p hp
    rw [List.eq_of_mem_replicate hp]
    exact hbg
  · intro c src ox oy ign res hc hsrc h
    unfold Canvas.blend at h
    obtain ⟨l, hl, hres⟩ := Option.map_eq_some'.mp h
    intro p hp
    rw [← hres] at hp
    exact blendGo_valid src.width c.width c.height ox oy ign src.canvas 0 c.canvas l
      hsrc hc hl p hp
  · intro c data res hc h
    unfold Canvas.import_rgb_data at h
    obtain ⟨l, hl, hres⟩ := Option.map_eq_some'.mp h
    intro p hp
    rw [← hres] at hp
    exact importRgbGo_valid data _ c.canvas l hc hl p hp
  · intro c data res hc h
    unfold Canvas.import_rgba_data at h
    obtain ⟨l, hl, hres⟩ := Option.map_eq_some'.mp h
    intro p hp
    rw [← hres] at hp
    exact importRgbaGo_valid data _ c.canvas l hc hl p hp
  · intro c x y w h res hc hr
    unfold Canvas.rect at hr
    by_cases h1 : x < 0 ∨ (c.width : ℤ) - 1 < x ∨ y < 0 ∨ (c.height : ℤ) - 1 < y
    · rw [if_pos h1] at hr; cases hr
    rw [if_neg h1] at hr
    by_cases h2 : w < 0 ∨ h < 0
    · rw [if_pos h2] at hr; cases hr
    rw [if_neg h2] at hr
    by_cases h3 : (c.width : ℤ) < x + w ∨ (c.height : ℤ) < y + h
    · rw [if_pos h3] at hr; cases hr
    rw [if_neg h3] at hr
    obtain ⟨px, hpx, hres⟩ := Option.map_eq_some'.mp hr
    intro p hp
    rw [← hres] at hp
    obtain ⟨pair, _, hpair⟩ := optionMapM_mem _ _ px hpx p hp
    exact hc p (pixelAt_mem c _ _ p hpair)

/-- C10 witness: the theorem applied to a concrete construction and to a
concrete blend result. -/
theorem c10_witness :
    validCanvas (canvasNew 2 2 ⟨0, 1/2, 1, 1⟩) ∧
    validCanvas ⟨1, 1, ⟨0, 0, 0, 1⟩, [⟨1, 0, 0, 1⟩]⟩ :=
  ⟨c10_channel_range_invariant.1 2 2 ⟨0, 1/2, 1, 1⟩ (by with_unfolding_all decide),
   c10_channel_range_invariant.2.2.1 (canvasNew 1 1 ⟨0, 0, 0, 1⟩)
     ⟨1, 1, ⟨0, 0, 0, 0⟩, [⟨1, 0, 0, 1⟩]⟩ 0 0 false ⟨1, 1, ⟨0, 0, 0, 1⟩, [⟨1, 0, 0, 1⟩]⟩
     (by with_unfolding_all decide) (by with_unfolding_all decide)
     (by with_unfolding_all decide)⟩

/-! ## C9: flattening an opaque canvas ignores the background -/

/-- For a fully opaque valid pixel, the three output bytes never read the
background. -/
theorem pixelBytes_fullalpha (bg col : RgbaColor) (ha : col.a = 1)
    (hval : validColor col) : pixelBytes bg col = some (pixTriple col) := by
  obtain ⟨hr0, hr1, hg0, hg1, hb0, hb1, _, _⟩ := hval
  unfold pixelBytes
  rw [if_pos (show (999 : ℚ) / 1000 ≤ col.a by rw [ha]; norm_num)]
  dsimp only
  have bound : ∀ ch : ℚ, 0 ≤ ch → ch ≤ 1 → 0 ≤ ⌊ch * 255⌋ ∧ ⌊ch * 255⌋ ≤ 255 := by
    intro ch h0 h1
    constructor
    · exact Int.le_floor.mpr (by push_cast; nlinarith)
    · have h2 : ⌊ch * 255⌋ ≤ ⌊(255 : ℚ)⌋ := Int.floor_le_floor (by nlinarith)
      simpa using h2
  rw [if_pos ⟨(bound col.r hr0 hr1).1, (bound col.r hr0 hr1).2,
    (bound col.g hg0 hg1).1, (bound col.g hg0 hg1).2,
    (bound col.b hb0 hb1).1, (bound col.b hb0 hb1).2⟩]
  rfl

theorem bytesGo_fullalpha (bg : RgbaColor) :
    ∀ (rest : List RgbaColor) (i : ℕ) (pre : List ℕ), pre.length = 3 * i →
      (∀ p ∈ rest, pixelBytes bg p = some (pixTriple p)) →
      bytesGo bg rest i (pre ++ List.replicate (3 * rest.length) 0) =
        some (pre ++ flat3 rest) := by
  intro rest
  induction rest with
  | nil =>
    intro i pre _ _
    unfold bytesGo
    rw [List.length_nil, Nat.mul_zero, List.replicate_zero, List.append_nil]
    show some pre = some (pre ++ flat3 [])
    rw [show flat3 [] = ([] : List ℕ) from rfl, List.append_nil]
  | cons p ps ih =>
    intro i pre hpre hall
    unfold bytesGo
    rw [hall p (List.mem_cons_self p ps)]
    dsimp only
    have hslice : writeSlice (pre ++ List.replicate (3 * (p :: ps).length) 0) (i * 3)
        (pixTriple p) = (pre ++ pixTriple p) ++ List.replicate (3 * ps.length) 0 := by
      unfold writeSlice
      rw [show (3 : ℕ) * (p :: ps).length = 3 + 3 * ps.length by
        rw [List.length_cons]; ring]
      rw [show i * 3 = pre.length by omega, List.take_left]
      rw [List.drop_append 3, List.drop_replicate]
      rw [show 3 + 3 * ps.length - 3 = 3 * ps.length by omega]
    rw [hslice]
    rw [ih (i + 1) (pre ++ pixTriple p) (by simp [pixTriple]; omega) fun q hq =>
      hall q (List.mem_cons_of_mem p hq)]
    rw [List.append_assoc]
    rfl

/-- C9 — confirmed.  Two canvases with the same dimensions and the same
fully opaque, channel-valid pixels produce byte-identical flattened output
whatever their backgrounds, and that output is the per-pixel
`floor(channel * 255)` triples in row-major order. -/
theorem c9_flatten_opaque_background_independent (c1 c2 : Canvas)
    (hw : c1.width = c2.width) (hh : c1.height = c2.height)
    (hpix : c1.canvas = c2.canvas)
    (hinv : c1.canvas.length = c1.width * c1.height)
    (hfull : ∀ p ∈ c1.canvas, p.a = 1)
    (hvalid : ∀ p ∈ c1.canvas, validColor p) :
    Canvas.bytes c1 = Canvas.bytes c2 ∧ Canvas.bytes c1 = some (flat3 c1.canvas) := by
  have key : ∀ ca : Canvas, ca.canvas = c1.canvas → ca.width = c1.width →
      ca.height = c1.height → Canvas.bytes ca = some (flat3 c1.canvas) := by
    intro ca hca hcw hchh
    unfold Canvas.bytes
    rw [hca, hcw, hchh]
    rw [show c1.width * c1.height * 3 = 3 * c1.canvas.length by rw [hinv]; ring]
    rw [show List.replicate (3 * c1.canvas.length) (0 : ℕ) =
      ([] : List ℕ) ++ List.replicate (3 * c1.canvas.length) 0 from rfl]
    rw [bytesGo_fullalpha ca.bgcolor c1.canvas 0 [] rfl fun p hp =>
      pixelBytes_fullalpha ca.bgcolor p (hfull p hp) (hvalid p hp)]
    rfl
  exact ⟨(key c1 rfl rfl rfl).trans (key c2 hpix.symm hw.symm hh.symm).symm,
    key c1 rfl rfl rfl⟩

/-- C9 witness: two 1 x 1 canvases with the same opaque pixel and opposite
backgrounds flatten to the same bytes, the pixel's floor-scaled triple. -/
theorem c9_witness :
    Canvas.bytes ⟨1, 1, ⟨0, 0, 0, 0⟩, [⟨1, 1/2, 0, 1⟩]⟩ =
      Canvas.bytes ⟨1, 1, ⟨1, 1, 1, 1⟩, [⟨1, 1/2, 0, 1⟩]⟩ ∧
    Canvas.bytes ⟨1, 1, ⟨0, 0, 0, 0⟩, [⟨1, 1/2, 0, 1⟩]⟩ =
      some (flat3 [⟨1, 1/2, 0, 1⟩]) :=
  c9_flatten_opaque_background_independent
    ⟨1, 1, ⟨0, 0, 0, 0⟩, [⟨1, 1/2, 0, 1⟩]⟩ ⟨1, 1, ⟨1, 1, 1, 1⟩, [⟨1, 1/2, 0, 1⟩]⟩
    rfl rfl rfl rfl (by with_unfolding_all decide) (by with_unfolding_all decide)

/-! ## C4: rect extraction followed by blend onto a cleared copy -/

theorem rectCoords_length (w : ℕ) : ∀ h, (rectCoords w h).length = h * w := by
  intro h
  induction h with
  | zero => simp [rectCoords]
  | succ h ih =>
    unfold rectCoords
    rw [List.length_append, ih, List.length_map, List.length_range]
    ring

theorem rectCoords_mem (w : ℕ) : ∀ h p, p ∈ rectCoords w h → p.1 < w ∧ p.2 < h := by
  intro h
  induction h with
  | zero => intro p hp; cases hp
  | succ h ih =>
    intro p hp
    unfold rectCoords at hp
    rcases List.mem_append.mp hp with hp1 | hp2
    · obtain ⟨h1, h2⟩ := ih p hp1
      exact ⟨h1, Nat.lt_succ_of_lt h2⟩
    · obtain ⟨tx, htx, rfl⟩ := List.mem_map.mp hp2
      exact ⟨List.mem_range.mp htx, Nat.lt_succ_self h⟩

theorem rectCoords_get (w : ℕ) : ∀ h ty tx, tx < w → ty < h →
    (rectCoords w h)[ty * w + tx]? = some (tx, ty) := by
  intro h
  induction h with
  | zero => intro ty tx _ h0; omega
  | succ h ih =>
    intro ty tx htx hty
    unfold rectCoords
    rw [List.getElem?_append]
    by_cases hlt : ty < h
    · rw [if_pos (by rw [rectCoords_length]; nlinarith)]
      exact ih ty tx htx hlt
    · have hty2 : ty = h := by omega
      subst hty2
      rw [if_neg (by rw [rectCoords_length]; nlinarith)]
      rw [rectCoords_length, show ty * w + tx - ty * w = tx by omega]
      rw [List.getElem?_map, List.getElem?_range htx]
      rfl

theorem optionMapM_get {α β : Type} (f : α → Option β) :
    ∀ (l : List α) (out : List β), l.mapM f = some out →
      out.length = l.length ∧ ∀ (k : ℕ) (a : α), l[k]? = some a → out[k]? = f a := by
  intro l
  induction l with
  | nil =>
    intro out h
    rw [List.mapM_nil] at h
    injection h with h
    subst h
    exact ⟨rfl, fun k a ha => by simp at ha⟩
  | cons a rest ih =>
    intro out h
    rw [List.mapM_cons] at h
    cases hfa : f a with
    | none => rw [hfa] at h; cases h
    | some b0 =>
      rw [hfa] at h
      cases hrest : rest.mapM f with
      | none => rw [hrest] at h; cases h
      | some bs =>
        rw [hrest] at h
        injection h with h
        subst h
        obtain ⟨hlen, hget⟩ := ih bs hrest
        constructor
        · rw [List.length_cons, List.length_cons, hlen]
        · intro k x hx
          cases k with
          | zero =>
            rw [List.getElem?_cons_zero] at hx
            injection hx with hx
            subst hx
            rw [List.getElem?_cons_zero, hfa]
          | succ k =>
            rw [List.getElem?_cons_succ] at hx
            rw [List.getElem?_cons_succ]
            exact hget k x hx

theorem natIndex_inj (W : ℕ) (hW : 0 < W) (a1 b1 a2 b2 : ℕ) (hb1 : b1 < W) (hb2 : b2 < W)
    (he : a1 * W + b1 = a2 * W + b2) : a1 = a2 ∧ b1 = b2 := by
  have key : ∀ a b : ℕ, b < W → (b + W * a) / W = a := by
    intro a b hb
    rw [Nat.add_mul_div_left b a hW, Nat.div_eq_of_lt hb, Nat.zero_add]
  have e2 : b1 + W * a1 = b2 + W * a2 := by
    have h1 : a1 * W = W * a1 := Nat.mul_comm _ _
    have h2 : a2 * W = W * a2 := Nat.mul_comm _ _
    omega
  have ha : a1 = a2 := by
    have h3 := congrArg (· / W) e2
    simpa [key a1 b1 hb1, key a2 b2 hb2] using h3
  subst ha
  exact ⟨rfl, by omega⟩

/-- Replacing with an effectively opaque source pixel copies it wholesale. -/
theorem blendPixel_replaces (ign : Bool) (p d : RgbaColor)
    (hp : (999999 : ℚ) / 1000000 ≤ p.a) : blendPixel ign p d = some p := by
  unfold blendPixel
  rw [if_pos (Or.inr hp)]

theorem blendGo_replaces (sw dw dh : ℕ) (hsw : sw ≠ 0) (ox oy : ℤ) :
    ∀ (rest : List RgbaColor) (i0 : ℕ) (st : List RgbaColor),
      (∀ p ∈ rest, (999999 : ℚ) / 1000000 ≤ p.a) →
      (∀ k, k < rest.length →
        ¬(ox + (((i0 + k) % sw : ℕ) : ℤ) < 0 ∨
          (dw : ℤ) - 1 < ox + (((i0 + k) % sw : ℕ) : ℤ) ∨
          oy + (((i0 + k) / sw : ℕ) : ℤ) < 0 ∨
          (dh : ℤ) - 1 < oy + (((i0 + k) / sw : ℕ) : ℤ))) →
      (∀ k, k < rest.length →
        ((oy + (((i0 + k) / sw : ℕ) : ℤ)) * dw +
          (ox + (((i0 + k) % sw : ℕ) : ℤ))).toNat < st.length) →
      (∀ k1 k2, k1 < k2 → k2 < rest.length →
        ((oy + (((i0 + k1) / sw : ℕ) : ℤ)) * dw + (ox + (((i0 + k1) % sw : ℕ) : ℤ))).toNat ≠
        ((oy + (((i0 + k2) / sw : ℕ) : ℤ)) * dw + (ox + (((i0 + k2) % sw : ℕ) : ℤ))).toNat) →
      ∃ st2, blendGo sw dw dh ox oy false rest i0 st = some st2 ∧ st2.length = st.length ∧
        (∀ q, (∀ k, k < rest.length →
          ((oy + (((i0 + k) / sw : ℕ) : ℤ)) * dw +
            (ox + (((i0 + k) % sw : ℕ) : ℤ))).toNat ≠ q) →
          st2[q]? = st[q]?) ∧
        (∀ k, k < rest.length →
          st2[((oy + (((i0 + k) / sw : ℕ) : ℤ)) * dw +
            (ox + (((i0 + k) % sw : ℕ) : ℤ))).toNat]? = rest[k]?) := by
  intro rest
  induction rest with
  | nil =>
    intro i0 st _ _ _ _
    exact ⟨st, rfl, rfl, fun q _ => rfl, fun k hk => by simp at hk⟩
  | cons p rest ih =>
    intro i0 st hop hib htgt hpw
    have hshift : ∀ k : ℕ, i0 + (k + 1) = i0 + 1 + k := fun k => by omega
    have hib0 := hib 0 (by simp)
    have htgt0 := htgt 0 (by simp)
    rw [Nat.add_zero] at hib0 htgt0
    unfold blendGo
    rw [if_neg hsw]
    dsimp only
    rw [if_neg hib0, List.getElem?_eq_getElem htgt0]
    dsimp only
    rw [blendPixel_replaces false p _ (hop p (List.mem_cons_self p rest))]
    dsimp only
    have hop2 : ∀ q ∈ rest, (999999 : ℚ) / 1000000 ≤ q.a :=
      fun q hq => hop q (List.mem_cons_of_mem p hq)
    have hib2 : ∀ k, k < rest.length →
        ¬(ox + (((i0 + 1 + k) % sw : ℕ) : ℤ) < 0 ∨
          (dw : ℤ) - 1 < ox + (((i0 + 1 + k) % sw : ℕ) : ℤ) ∨
          oy + (((i0 + 1 + k) / sw : ℕ) : ℤ) < 0 ∨
          (dh : ℤ) - 1 < oy + (((i0 + 1 + k) / sw : ℕ) : ℤ)) := by
      intro k hk
      have := hib (k + 1) (by simp; omega)
      rw [hshift k] at this
      exact this
    have htgt2 : ∀ k, k < rest.length →
        ((oy + (((i0 + 1 + k) / sw : ℕ) : ℤ)) * dw +
          (ox + (((i0 + 1 + k) % sw : ℕ) : ℤ))).toNat <
          (st.set ((oy + ((i0 / sw : ℕ) : ℤ)) * dw +
            (ox + ((i0 % sw : ℕ) : ℤ))).toNat p).length := by
      intro k hk
      rw [List.length_set]
      have := htgt (k + 1) (by simp; omega)
      rw [hshift k] at this
      exact this
    have hpw2 : ∀ k1 k2, k1 < k2 → k2 < rest.length →
        ((oy + (((i0 + 1 + k1) / sw : ℕ) : ℤ)) * dw +
          (ox + (((i0 + 1 + k1) % sw : ℕ) : ℤ))).toNat ≠
        ((oy + (((i0 + 1 + k2) / sw : ℕ) : ℤ)) * dw +
          (ox + (((i0 + 1 + k2) % sw : ℕ) : ℤ))).toNat := by
      intro k1 k2 hlt hk2
      have := hpw (k1 + 1) (k2 + 1) (by omega) (by simp; omega)
      rw [hshift k1, hshift k2] at this
      exact this
    obtain ⟨st2, h1, h2, h3, h4⟩ := ih (i0 + 1) _ hop2 hib2 htgt2 hpw2
    refine ⟨st2, h1, by rw [h2, List.length_set], ?_, ?_⟩
    · intro q hq
      have hq0 := hq 0 (by simp)
      rw [Nat.add_zero] at hq0
      rw [h3 q ?_]
      · exact List.getElem?_set_ne hq0
      · intro k hk
        have := hq (k + 1) (by simp; omega)
        rw [hshift k] at this
        exact this
    · intro k hk
      cases k with
      | zero =>
        rw [Nat.add_zero]
        rw [h3 _ ?_]
        · rw [List.getElem?_set_eq_of_lt p htgt0, List.getElem?_cons_zero]
        · intro k2 hk2
          have := hpw 0 (k2 + 1) (by omega) (by simp; omega)
          rw [Nat.add_zero, hshift k2] at this
          exact fun heq => this heq.symm
      | succ k =>
        rw [hshift k]
        rw [h4 k (by rw [List.length_cons] at hk; omega)]
        rw [List.getElem?_cons_succ]

theorem idxEval (x y W a b : ℕ) :
    (((y : ℤ) + (a : ℤ)) * (W : ℤ) + ((x : ℤ) + (b : ℤ))).toNat = (y + a) * W + (x + b) := by
  rw [show ((y : ℤ) + (a : ℤ)) * (W : ℤ) + ((x : ℤ) + (b : ℤ)) =
    (((y + a) * W + (x + b) : ℕ) : ℤ) by push_cast; ring]
  rw [Int.toNat_natCast]

theorem pixelAt_eval (c : Canvas) (a b : ℕ) (ha : a < c.width) (hb : b < c.height) :
    c.pixelAt a b = c.canvas[a + c.width * b]? := by
  unfold Canvas.pixelAt Canvas.coordinate_to_index
  rw [if_neg (by omega)]
  show c.canvas[((a : ℤ) + (c.width : ℤ) * (b : ℤ)).toNat]? = _
  rw [show (a : ℤ) + (c.width : ℤ) * (b : ℤ) = ((a + c.width * b : ℕ) : ℤ) by push_cast; ring]
  rw [Int.toNat_natCast]

/-- Success and pointwise characterisation of `Canvas.rect` for an accepted
rectangle on a canvas satisfying the length invariant. -/
theorem rect_spec (c : Canvas) (x y w h : ℕ)
    (hinv : c.canvas.length = c.width * c.height)
    (hx : x < c.width) (hy : y < c.height)
    (hxw : x + w ≤ c.width) (hyh : y + h ≤ c.height) :
    ∃ r : Canvas, Canvas.rect c x y w h = some r ∧ r.width = w ∧ r.height = h ∧
      r.bgcolor = c.bgcolor ∧ r.canvas.length = h * w ∧
      ∀ ty tx, tx < w → ty < h →
        r.canvas[ty * w + tx]? = c.canvas[(x + tx) + c.width * (y + ty)]? := by
  have hpix : ∀ p : ℕ × ℕ, p ∈ rectCoords w h →
      c.pixelAt ((x : ℤ) + (p.1 : ℤ)) ((y : ℤ) + (p.2 : ℤ)) =
        c.canvas[(x + p.1) + c.width * (y + p.2)]? := by
    intro p hp
    obtain ⟨h1, h2⟩ := rectCoords_mem w h p hp
    rw [show (x : ℤ) + (p.1 : ℤ) = ((x + p.1 : ℕ) : ℤ) by push_cast; ring]
    rw [show (y : ℤ) + (p.2 : ℤ) = ((y + p.2 : ℕ) : ℤ) by push_cast; ring]
    exact pixelAt_eval c (x + p.1) (y + p.2) (by omega) (by omega)
  have hlt : ∀ p : ℕ × ℕ, p ∈ rectCoords w h →
      (x + p.1) + c.width * (y + p.2) < c.canvas.length := by
    intro p hp
    obtain ⟨h1, h2⟩ := rectCoords_mem w h p hp
    rw [hinv]
    have hm := mul_le_mul_left' (show y + p.2 + 1 ≤ c.height by omega) c.width
    nlinarith
  obtain ⟨out, hout⟩ := Option.isSome_iff_exists.mp
    (optionMapM_isSome (fun p : ℕ × ℕ => c.pixelAt ((x : ℤ) + (p.1 : ℤ)) ((y : ℤ) + (p.2 : ℤ)))
      (rectCoords w h) (fun p hp => by
        show (c.pixelAt ((x : ℤ) + (p.1 : ℤ)) ((y : ℤ) + (p.2 : ℤ))).isSome = true
        rw [hpix p hp, List.getElem?_eq_getElem (hlt p hp)]
        rfl))
  obtain ⟨hlen, hget⟩ := optionMapM_get _ (rectCoords w h) out hout
  unfold Canvas.rect
  rw [if_neg (by omega), if_neg (by omega), if_neg (by omega)]
  rw [Int.toNat_natCast, Int.toNat_natCast, hout]
  refine ⟨⟨w, h, c.bgcolor, out⟩, rfl, rfl, rfl, rfl, ?_, ?_⟩
  · rw [hlen, rectCoords_length]
  · intro ty tx htx hty
    show out[ty * w + tx]? = _
    rw [hget (ty * w + tx) (tx, ty) (rectCoords_get w h ty tx htx hty)]
    exact hpix (tx, ty) (by
      rw [List.mem_iff_getElem?]
      exact ⟨ty * w + tx, rectCoords_get w h ty tx htx hty⟩)

/-- C4 counterexample: a 1 x 1 canvas with a half-transparent pixel over an
opaque white background.  rect extracts the pixel, the cleared copy is
opaque white, and blending composites the half-transparent pixel over white:
the result is (1/2, 1/2, 1/2, 1), not the original (0, 0, 0, 1/2). -/
theorem c4_counterexample :
    Canvas.rect ⟨1, 1, ⟨1, 1, 1, 1⟩, [⟨0, 0, 0, 1/2⟩]⟩ 0 0 1 1 =
      some ⟨1, 1, ⟨1, 1, 1, 1⟩, [⟨0, 0, 0, 1/2⟩]⟩ ∧
    Canvas.blend (Canvas.clear ⟨1, 1, ⟨1, 1, 1, 1⟩, [⟨0, 0, 0, 1/2⟩]⟩)
        ⟨1, 1, ⟨1, 1, 1, 1⟩, [⟨0, 0, 0, 1/2⟩]⟩ 0 0 false =
      some ⟨1, 1, ⟨1, 1, 1, 1⟩, [⟨1/2, 1/2, 1/2, 1⟩]⟩ ∧
    (⟨1/2, 1/2, 1/2, 1⟩ : RgbaColor) ≠ ⟨0, 0, 0, 1/2⟩ := by
  refine ⟨?_, ?_, ?_⟩ <;> with_unfolding_all decide

/-- C4 — corrected.  For every canvas with the length invariant and every
rectangle the source accepts, IF every pixel of the rectangle has alpha at
least the blend opacity threshold 0.999999, then extracting the rectangle
and blending the extracted canvas at the original offset onto a cleared
copy of the source reproduces the rectangle's pixels exactly.  (A pixel
below the threshold is instead composited over the cleared background and
generally changes — see the counterexample.) -/
theorem c4_rect_blend_roundtrip (c : Canvas) (x y w h : ℕ)
    (hinv : c.canvas.length = c.width * c.height)
    (hx : x < c.width) (hy : y < c.height)
    (hxw : x + w ≤ c.width) (hyh : y + h ≤ c.height)
    (hfull : ∀ (tx ty : ℕ) (p : RgbaColor), tx < w → ty < h →
      c.canvas[(x + tx) + c.width * (y + ty)]? = some p →
      (999999 : ℚ) / 1000000 ≤ p.a) :
    ∃ r res : Canvas, Canvas.rect c x y w h = some r ∧
      Canvas.blend (Canvas.clear c) r x y false = some res ∧
      ∀ tx ty, tx < w → ty < h →
        res.canvas[(x + tx) + c.width * (y + ty)]? =
          c.canvas[(x + tx) + c.width * (y + ty)]? := by
  obtain ⟨r, hr, hrw, hrh, hrbg, hrlen, hrget⟩ := rect_spec c x y w h hinv hx hy hxw hyh
  by_cases hwh : w = 0 ∨ h = 0
  · have hempty : r.canvas = [] := by
      apply List.eq_nil_of_length_eq_zero
      rcases hwh with h0 | h0
      · rw [hrlen, h0, Nat.mul_zero]
      · rw [hrlen, h0, Nat.zero_mul]
    refine ⟨r, Canvas.clear c, hr, ?_, ?_⟩
    · unfold Canvas.blend
      rw [hempty]
      rfl
    · intro tx ty htx hty
      rcases hwh with h0 | h0 <;> omega
  · push_neg at hwh
    obtain ⟨hw0, hh0⟩ := hwh
    have hWpos : 0 < c.width := by omega
    have hdm : ∀ k : ℕ, k < h * w → k % w < w ∧ k / w < h := by
      intro k hk
      exact ⟨Nat.mod_lt k (by omega), (Nat.div_lt_iff_lt_mul (by omega)).mpr hk⟩
    have hop : ∀ p ∈ r.canvas, (999999 : ℚ) / 1000000 ≤ p.a := by
      intro p hp
      obtain ⟨k, hk⟩ := List.mem_iff_getElem?.mp hp
      have hklt : k < r.canvas.length := (List.getElem?_eq_some.mp hk).1
      rw [hrlen] at hklt
      obtain ⟨hmk, hdk⟩ := hdm k hklt
      have hkeq : k / w * w + k % w = k := by
        have := Nat.div_add_mod k w
        have h2 : w * (k / w) = k / w * w := Nat.mul_comm _ _
        omega
      rw [← hkeq] at hk
      rw [hrget (k / w) (k % w) hmk hdk] at hk
      exact hfull (k % w) (k / w) p hmk hdk hk
    have hib : ∀ k, k < r.canvas.length →
        ¬((x : ℤ) + (((0 + k) % w : ℕ) : ℤ) < 0 ∨
          (c.width : ℤ) - 1 < (x : ℤ) + (((0 + k) % w : ℕ) : ℤ) ∨
          (y : ℤ) + (((0 + k) / w : ℕ) : ℤ) < 0 ∨
          (c.height : ℤ) - 1 < (y : ℤ) + (((0 + k) / w : ℕ) : ℤ)) := by
      intro k hk
      rw [hrlen] at hk
      rw [Nat.zero_add]
      obtain ⟨hmk, hdk⟩ := hdm k hk
      have hm0 : (0 : ℤ) ≤ ((k % w : ℕ) : ℤ) := Int.natCast_nonneg _
      have hd0 : (0 : ℤ) ≤ ((k / w : ℕ) : ℤ) := Int.natCast_nonneg _
      have hmlt : ((k % w : ℕ) : ℤ) < (w : ℤ) := by exact_mod_cast hmk
      have hdlt : ((k / w : ℕ) : ℤ) < (h : ℤ) := by exact_mod_cast hdk
      have hxw2 : (x : ℤ) + (w : ℤ) ≤ (c.width : ℤ) := by exact_mod_cast hxw
      have hyh2 : (y : ℤ) + (h : ℤ) ≤ (c.height : ℤ) := by exact_mod_cast hyh
      have hx0 : (0 : ℤ) ≤ (x : ℤ) := Int.natCast_nonneg _
      have hy0 : (0 : ℤ) ≤ (y : ℤ) := Int.natCast_nonneg _
      push_neg
      exact ⟨by linarith, by linarith, by linarith, by linarith⟩
    have htgt : ∀ k, k < r.canvas.length →
        (((y : ℤ) + (((0 + k) / w : ℕ) : ℤ)) * (c.width : ℤ) +
          ((x : ℤ) + (((0 + k) % w : ℕ) : ℤ))).toNat <
          (List.replicate (c.width * c.height) c.bgcolor).length := by
      intro k hk
      rw [hrlen] at hk
      rw [Nat.zero_add, List.length_replicate, idxEval]
      obtain ⟨hmk, hdk⟩ := hdm k hk
      have hm := mul_le_mul_right' (show y + k / w + 1 ≤ c.height by omega) c.width
      nlinarith
    have hpw : ∀ k1 k2, k1 < k2 → k2 < r.canvas.length →
        (((y : ℤ) + (((0 + k1) / w : ℕ) : ℤ)) * (c.width : ℤ) +
          ((x : ℤ) + (((0 + k1) % w : ℕ) : ℤ))).toNat ≠
        (((y : ℤ) + (((0 + k2) / w : ℕ) : ℤ)) * (c.width : ℤ) +
          ((x : ℤ) + (((0 + k2) % w : ℕ) : ℤ))).toNat := by
      intro k1 k2 hlt hk2
      rw [hrlen] at hk2
      rw [Nat.zero_add, Nat.zero_add, idxEval, idxEval]
      intro heq
      obtain ⟨hmk1, hdk1⟩ := hdm k1 (by omega)
      obtain ⟨hmk2, hdk2⟩ := hdm k2 hk2
      obtain ⟨ha, hb⟩ := natIndex_inj c.width hWpos (y + k1 / w) (x + k1 % w)
        (y + k2 / w) (x + k2 % w) (by omega) (by omega) heq
      have hd12 : k1 / w = k2 / w := by omega
      have hm12 : k1 % w = k2 % w := by omega
      have e1 := Nat.div_add_mod k1 w
      have e2 := Nat.div_add_mod k2 w
      rw [hd12, hm12] at e1
      omega
    obtain ⟨st2, hgo, hlen2, huntouched, hwritten⟩ :=
      blendGo_replaces w c.width c.height hw0 (x : ℤ) (y : ℤ) r.canvas 0
        (List.replicate (c.width * c.height) c.bgcolor) hop hib htgt hpw
    refine ⟨r, ⟨c.width, c.height, c.bgcolor, st2⟩, hr, ?_, ?_⟩
    · unfold Canvas.blend
      simp only [Canvas.clear]
      rw [hrw, hgo]
      rfl
    · intro tx ty htx hty
      have hk : ty * w + tx < r.canvas.length := by
        rw [hrlen]
        have hm := mul_le_mul_right' (show ty + 1 ≤ h by omega) w
        nlinarith
      have hw := hwritten (ty * w + tx) hk
      rw [Nat.zero_add] at hw
      rw [show (ty * w + tx) / w = ty by
        rw [show ty * w + tx = tx + ty * w by ring, Nat.add_mul_div_right tx ty (by omega),
          Nat.div_eq_of_lt htx, Nat.zero_add]] at hw
      rw [show (ty * w + tx) % w = tx by
        rw [show ty * w + tx = tx + ty * w by ring, Nat.add_mul_mod_self_right,
          Nat.mod_eq_of_lt htx]] at hw
      rw [idxEval] at hw
      show st2[(x + tx) + c.width * (y + ty)]? = _
      rw [show (x + tx) + c.width * (y + ty) = (y + ty) * c.width + (x + tx) by ring]
      rw [hw, hrget ty tx htx hty]
      rw [show (x + tx) + c.width * (y + ty) = (y + ty) * c.width + (x + tx) by ring]

/-- C4 witness: a 1 x 1 canvas with an opaque pixel; the full-extract
round trip reproduces the pixel. -/
theorem c4_witness :
    ∃ r res : Canvas,
      Canvas.rect ⟨1, 1, ⟨0, 0, 0, 0⟩, [⟨1/2, 1/3, 1/4, 1⟩]⟩ 0 0 1 1 = some r ∧
      Canvas.blend (Canvas.clear ⟨1, 1, ⟨0, 0, 0, 0⟩, [⟨1/2, 1/3, 1/4, 1⟩]⟩) r 0 0 false =
        some res ∧
      ∀ tx ty, tx < 1 → ty < 1 →
        res.canvas[(0 + tx) + 1 * (0 + ty)]? =
          (⟨1, 1, ⟨0, 0, 0, 0⟩, [⟨1/2, 1/3, 1/4, 1⟩]⟩ : Canvas).canvas[(0 + tx) + 1 * (0 + ty)]? := by
  apply c4_rect_blend_roundtrip ⟨1, 1, ⟨0, 0, 0, 0⟩, [⟨1/2, 1/3, 1/4, 1⟩]⟩ 0 0 1 1
    rfl (by decide) (by decide) (by decide) (by decide)
  intro tx ty p _ _ hread
  have hmem := List.getElem?_mem hread
  rw [List.mem_singleton] at hmem
  subst hmem
  with_unfolding_all decide
